import Mathlib

/-!
Shallow embedding of `src/fuzz_introspector/analyses/sinks_analyser.py`
(the `SinkCoverageAnalyser` analysis plugin) together with theorems
checking the natural-language specification against it.

Python values are modelled as follows: machine-level `str` is `String`,
`int` is `Int`, `None`-able strings are `Option String` (with `none` for
`None`), dictionaries are association lists with Python insertion-order
semantics, and code that can raise is embedded in `Except PyErr`.
External collaborators (the profile data model, the coverage index, the
demangler, the html helpers) are not part of the analysed source; they
are modelled from the specification's description of their interfaces.
-/

/-- The Python exceptions that the embedded code can raise. -/
inductive PyErr : Type where
  | keyError : PyErr
  | valueError : PyErr
  | indexError : PyErr
deriving DecidableEq, Repr

/-- Python truthiness of a `None`-able string: `None` and `""` are falsy. -/
def pyTruthy : Option String → Bool
  | none => false
  | some s => !(s == "")

/-- Python `"%s" % x` rendering of a `None`-able string: `None` renders as
the text `None`. -/
def pyStrOpt : Option String → String
  | none => "None"
  | some s => s

/-- Python `"%s" % n` rendering of an `int`. -/
def pyStrInt (n : Int) : String := toString n

/-- Python `f"{b}"` rendering of a `bool`. -/
def pyStrBool (b : Bool) : String := if b then "True" else "False"

/-- Splitting a list of characters at every occurrence of `sep`,
keeping empty segments, as Python `str.split(sep)` does
(`"" → [""]`, `"a::b" → ["a", "", "b"]`). -/
def splitCharList (sep : Char) : List Char → List (List Char)
  | [] => [[]]
  | c :: rest =>
      let r := splitCharList sep rest
      if c = sep then [] :: r
      else
        match r with
        | [] => [[c]]
        | h :: t => (c :: h) :: t

/-- Python `s.split(sep)` for a single-character separator. -/
def pySplit (sep : Char) (s : String) : List String :=
  (splitCharList sep s.data).map String.mk

/-- Joining segments with a separator character; inverse of `splitCharList`.
Used to model the left half of Python `str.rsplit(sep, 1)`. -/
def joinWithSep (sep : Char) : List (List Char) → List Char
  | [] => []
  | [x] => x
  | x :: xs => x ++ sep :: joinWithSep sep xs

/-- Python `int(s)`: optional surrounding spaces, an optional sign and a
nonempty run of decimal digits; `none` models a `ValueError`. -/
def pyInt (s : String) : Option Int :=
  let t := ((s.data.dropWhile (fun c => c = ' ')).reverse.dropWhile
      (fun c => c = ' ')).reverse
  let core : Int × List Char :=
    match t with
    | '-' :: rest => (-1, rest)
    | '+' :: rest => (1, rest)
    | l => (1, l)
  if core.2 = [] then none
  else if core.2.all Char.isDigit then
    some (core.1 * (core.2.foldl (fun acc c => acc * 10 + (c.toNat - 48)) 0 : Nat))
  else none

/-- A Python `dict` with string keys, as an insertion-ordered association
list whose keys are unique. -/
abbrev PyDict (α : Type) := List (String × α)

/-- Python `d[k]` as an optional lookup (`none` models a `KeyError`). -/
def pdGet {α : Type} (d : PyDict α) (k : String) : Option α :=
  match d with
  | [] => none
  | (k2, v) :: rest => if k2 = k then some v else pdGet rest k

/-- Python `k in d.keys()`. -/
def pdHasKey {α : Type} (d : PyDict α) (k : String) : Bool :=
  (pdGet d k).isSome

/-- Python `d[k] = v`: overwrite in place if the key exists, else append. -/
def pdSet {α : Type} (d : PyDict α) (k : String) (v : α) : PyDict α :=
  match d with
  | [] => [(k, v)]
  | (k2, v2) :: rest => if k2 = k then (k2, v) :: rest else (k2, v2) :: pdSet rest k v

/-- Python `list(set(l))` for a list of strings, modelled as
order-preserving de-duplication (CPython's set iteration order is
unspecified; every claim about this value is order-insensitive). -/
def pyListSetGo (seen : List String) : List String → List String
  | [] => []
  | x :: rest =>
      if x ∈ seen then pyListSetGo seen rest
      else x :: pyListSetGo (seen ++ [x]) rest

/-- Python `list(set(l))`, see `pyListSetGo`. -/
def pyListSet (l : List String) : List String := pyListSetGo [] l

/-- Python iteration over a string yields its characters as length-one
strings; `list.extend(s)` therefore appends these. -/
def pyIterString (s : String) : List String :=
  s.data.map (fun c => String.mk [c])

/-- Python `str(l)` for a list of strings: `['a', 'b']`.  The element
quote is the ASCII apostrophe (character 39); escaping inside elements is
not modelled (no claim depends on it). -/
def pyReprList (l : List String) : String :=
  let q := String.mk [Char.ofNat 39]
  "[" ++ String.intercalate ", " (l.map (fun s => q ++ s ++ q)) ++ "]"

/-- One node of the call tree (`cfg_load.CalltreeCallsite`).  Modelled from
the spec: the call-tree data model is an external collaborator; a call site
carries source function name, source file, line number, destination
function name, destination file and an optional parent node. -/
inductive CalltreeCallsite : Type where
  | mk : Option String → Option String → Int → String → Option String →
      Option CalltreeCallsite → CalltreeCallsite

/-- The call site's source function name (may be absent). -/
def CalltreeCallsite.src_function_name : CalltreeCallsite → Option String
  | .mk a _ _ _ _ _ => a

/-- The call site's source file (may be absent). -/
def CalltreeCallsite.src_function_source_file : CalltreeCallsite → Option String
  | .mk _ b _ _ _ _ => b

/-- The call site's line number. -/
def CalltreeCallsite.src_linenumber : CalltreeCallsite → Int
  | .mk _ _ c _ _ _ => c

/-- The destination (callee) function name. -/
def CalltreeCallsite.dst_function_name : CalltreeCallsite → String
  | .mk _ _ _ d _ _ => d

/-- The destination function's source file (may be absent). -/
def CalltreeCallsite.dst_function_source_file : CalltreeCallsite → Option String
  | .mk _ _ _ _ e _ => e

/-- The parent call-tree node, absent at the tree root. -/
def CalltreeCallsite.parent_calltree_callsite : CalltreeCallsite → Option CalltreeCallsite
  | .mk _ _ _ _ _ p => p

/-- One known function (`function_profile.FunctionProfile`).  Modelled from
the spec: the profile data model is an external collaborator; a function
record carries its unique name, declaring source file, incoming references,
the fuzzers that reach it, and a mapping from callee function name to the
call-site descriptor string it records as caller. -/
structure FunctionProfile : Type where
  function_name : String
  function_source_file : String
  callsite : List (String × String)
  incoming_references : List String
  reached_by_fuzzers : List String
deriving DecidableEq, Repr

/-- The merged project profile (`project_profile.MergedProjectProfile`).
Modelled from the spec: `all_functions` is the project-wide function
registry and `runtime_coverage` is the external coverage index's
`is_func_lineno_hit(function, line)` query. -/
structure MergedProjectProfile : Type where
  all_functions : List (String × FunctionProfile)
  runtime_coverage : String → Int → Bool

/-- One fuzz-entry profile (`fuzzer_profile.FuzzerProfile`).  Modelled from
the spec: the call-depth structure is kept already flattened as its list of
call sites (`extract_all_callsites` is the spec's flattening collaborator),
`None` when the profile has no computed call-depth data. -/
structure FuzzerProfile : Type where
  function_call_depths : Option (List CalltreeCallsite)
  all_class_functions : List (String × FunctionProfile)
  target_lang : String

/-- Modelled from the spec: `cfg_load.extract_all_callsites` flattens a
profile's call-depth structure into the list of its call sites; since the
structure is modelled as that list, flattening is the identity. -/
def extract_all_callsites (depths : List CalltreeCallsite) : List CalltreeCallsite :=
  depths

/-- The `SINK_FUNCTION` table: per-language (package, function) pairs. -/
def SINK_FUNCTION : PyDict (List (String × String)) :=
  [("c-cpp",
    [("", "system"),
     ("", "execl"),
     ("", "execve"),
     ("", "wordexp"),
     ("", "popen"),
     ("", "fdopen")]),
   ("python",
    [("", "exec"),
     ("", "eval"),
     ("subprocess", "call"),
     ("subprocess", "run"),
     ("subprocess", "Popen"),
     ("subprocess", "check_output"),
     ("os", "system"),
     ("os", "popen"),
     ("os", "spawnlpe"),
     ("os", "spawnve"),
     ("os", "execl"),
     ("os", "execve"),
     ("asyncio", "create_subprocess_shell"),
     ("asyncio", "create_subprocess_exec"),
     ("asyncio", "run"),
     ("asyncio", "sleep"),
     ("logging.config", "listen"),
     ("code.InteractiveInterpreter", "runsource"),
     ("code.InteractiveInterpreter", "runcode"),
     ("code.InteractiveInterpreter", "write"),
     ("code.InteractiveConsole", "push"),
     ("code.InteractiveConsole", "interact"),
     ("code.InteractiveConsole", "raw_input"),
     ("code", "interact"),
     ("code", "compile_command")]),
   ("jvm",
    [("java.lang.Runtime", "exec"),
     ("javax.xml.xpath.XPath", "compile"),
     ("javax.xml.xpath.XPath", "evaluate"),
     ("java.lang.Thread", "sleep"),
     ("java.lang.Thread", "run"),
     ("java.lang.Runnable", "run"),
     ("java.util.concurrent.Executor", "execute"),
     ("java.util.concurrent.Callable", "call"),
     ("java.lang.System", "console"),
     ("java.lang.System", "load"),
     ("java.lang.System", "loadLibrary"),
     ("java.lang.System", "apLibraryName"),
     ("java.lang.System", "runFinalization"),
     ("java.lang.System", "setErr"),
     ("java.lang.System", "setIn"),
     ("java.lang.System", "setOut"),
     ("java.lang.System", "setProperties"),
     ("java.lang.System", "setProperty"),
     ("java.lang.System", "setSecurityManager"),
     ("java.lang.ProcessBuilder", "directory"),
     ("java.lang.ProcessBuilder", "inheritIO"),
     ("java.lang.ProcessBuilder", "command"),
     ("java.lang.ProcessBuilder", "edirectError"),
     ("java.lang.ProcessBuilder", "redirectErrorStream"),
     ("java.lang.ProcessBuilder", "redirectInput"),
     ("java.lang.ProcessBuilder", "redirectOutput"),
     ("java.lang.ProcessBuilder", "start")])]

/-- `Analysis._get_source_file`: the call site's own source file; if that
is falsy and a parent node exists, the parent's destination source file,
normalised to `""` when itself falsy; with no parent the original falsy
value is returned unchanged. -/
def get_source_file (callsite : CalltreeCallsite) : Option String :=
  let src_file := callsite.src_function_source_file
  if pyTruthy src_file then src_file
  else
    match callsite.parent_calltree_callsite with
    | some parent =>
        let src_file := parent.dst_function_source_file
        if pyTruthy src_file then src_file else some ""
    | none => src_file

/-- `Analysis._get_parent_func_name`: despite its name, the source reads
`callsite.src_function_source_file` (the source FILE) both as the value
and as the fallback condition; only the fallback reads the parent's
destination function NAME. -/
def get_parent_func_name (callsite : CalltreeCallsite) : Option String :=
  let func_file := callsite.src_function_source_file
  if pyTruthy func_file then func_file
  else
    match callsite.parent_calltree_callsite with
    | some parent =>
        let func_file := some parent.dst_function_name
        if pyTruthy func_file then func_file else some ""
    | none => func_file

/-- The `"%s#%s:%s"` descriptor format expression from
`Analysis.map_function_callsite`. -/
def callsite_descriptor (callsite : CalltreeCallsite) : String :=
  pyStrOpt (get_source_file callsite) ++ "#" ++
    pyStrOpt (get_parent_func_name callsite) ++ ":" ++
    pyStrInt callsite.src_linenumber

/-- The shared body of the two aggregation loops in
`Analysis.retrieve_data_list`: append the function and its name when the
registry KEY has not been seen in `function_name_list` yet. -/
def aggregate_function_step (st : List FunctionProfile × List String)
    (kv : String × FunctionProfile) : List FunctionProfile × List String :=
  if kv.1 ∈ st.2 then st
  else (st.1 ++ [kv.2], st.2 ++ [kv.2.function_name])

/-- `Analysis.retrieve_data_list`: the project-wide registry is aggregated
first, then for each fuzzer profile its flattened call sites (when the
call-depth structure is not `None`) and its own registry. -/
def retrieve_data_list (proj_profile : MergedProjectProfile)
    (profiles : List FuzzerProfile) :
    List CalltreeCallsite × List FunctionProfile :=
  let fs := proj_profile.all_functions.foldl aggregate_function_step ([], [])
  let st := profiles.foldl
    (fun st profile =>
      let callsite_list :=
        match profile.function_call_depths with
        | some depths => st.1 ++ extract_all_callsites depths
        | none => st.1
      (callsite_list, profile.all_class_functions.foldl aggregate_function_step st.2))
    (([] : List CalltreeCallsite), fs)
  (st.1, st.2.1)

/-- The body of the call-site loop in `Analysis.map_function_callsite`:
append the descriptor under the destination function's key when that key
exists, else drop the call site. -/
def map_callsite_step (d : PyDict (List String)) (callsite : CalltreeCallsite) :
    PyDict (List String) :=
  let func_name := callsite.dst_function_name
  if pdHasKey d func_name then
    pdSet d func_name ((pdGet d func_name).getD [] ++ [callsite_descriptor callsite])
  else d

/-- `Analysis.map_function_callsite`: initialise every known function name
with `[]`, append each call site's descriptor under its destination
function when known, then de-duplicate each value with `list(set(...))`. -/
def map_function_callsite (functions : List FunctionProfile)
    (callsites : List CalltreeCallsite) : PyDict (List String) :=
  let callsite_dict := functions.foldl
    (fun d function => pdSet d function.function_name []) []
  let callsite_dict := callsites.foldl map_callsite_step callsite_dict
  callsite_dict.map (fun kv => (kv.1, pyListSet kv.2))

/-- The loop body of `Analysis.retrieve_reachable_functions` for one
`(func_name, callsite_str)` item of a function's own `callsite` mapping:
test `callsite_str in function_callsites[func_name]` (a `KeyError` when
`func_name` is not a key) and on success `function_list.extend(callsite_str)`
— Python `extend` of a string appends its CHARACTERS. -/
def reachable_check_step (function_callsites : PyDict (List String))
    (acc2 : List String) (pair : String × String) : Except PyErr (List String) :=
  match pdGet function_callsites pair.1 with
  | none => Except.error PyErr.keyError
  | some lst =>
      if pair.2 ∈ lst then pure (acc2 ++ pyIterString pair.2)
      else pure acc2

/-- The nested loops of `Analysis.retrieve_reachable_functions`, one
`reachable_check_step` per `(func_name, callsite_str)` item. -/
def retrieve_reachable_functions (functions : List FunctionProfile)
    (function_callsites : PyDict (List String)) : Except PyErr (List String) := do
  let function_list ← functions.foldlM
    (fun acc function => function.callsite.foldlM (reachable_check_step function_callsites) acc)
    ([] : List String)
  pure (pyListSet function_list)

/-- The jvm key derivation of `Analysis.filter_function_list`:
`function_name.split('(')[0]`, then `rsplit('.', 1)` when a dot is present
(modelled as split-at-every-dot, rejoin all but the last segment), else the
`default` package. -/
def jvm_sink_key (raw : String) : String × String :=
  let func_name := (pySplit '(' raw).headD ""
  if '.' ∈ func_name.data then
    let parts := splitCharList '.' func_name.data
    (String.mk (joinWithSep '.' parts.dropLast), String.mk (parts.getLastD []))
  else ("default", func_name)

/-- Written from the spec's words (§4.5, jvm): strip any parameter
signature suffix (the text from the first opening parenthesis onward); if
the remaining name contains a dot, split on the LAST dot into
(package.class, method); otherwise the qualifier is the literal
default-package marker. -/
def jvm_sink_key_spec (raw : String) : String × String :=
  let stripped := raw.data.takeWhile (fun c => c ≠ '(')
  if '.' ∈ stripped then
    (String.mk (((stripped.reverse.dropWhile (fun c => c ≠ '.')).drop 1).reverse),
     String.mk ((stripped.reverse.takeWhile (fun c => c ≠ '.')).reverse))
  else ("default", String.mk stripped)

/-- `Analysis.filter_function_list`: derive a (package, function-name) key
per target language (`demangle` is the external demangling collaborator)
and keep the functions whose key is listed in `SINK_FUNCTION` for that
language; other languages are skipped.  The `SINK_FUNCTION[target_lang]`
subscript is reached only on the three keyed languages, so it is modelled
with a default. -/
def filter_sink_step (demangle : String → String) (target_lang : String)
    (function_list : List FunctionProfile) (fd : FunctionProfile) :
    List FunctionProfile :=
  let key : Option (String × String) :=
    if target_lang = "c-cpp" then some ("", demangle fd.function_name)
    else if target_lang = "python" then
      some (fd.function_source_file, fd.function_name)
    else if target_lang = "jvm" then some (jvm_sink_key fd.function_name)
    else none
  match key with
  | none => function_list
  | some pk =>
      if pk ∈ (pdGet SINK_FUNCTION target_lang).getD [] then
        function_list ++ [fd]
      else function_list

/-- The loop of `Analysis.filter_function_list`, one `filter_sink_step`
per function. -/
def filter_function_list (demangle : String → String)
    (functions : List FunctionProfile) (target_lang : String) :
    List FunctionProfile :=
  functions.foldl (filter_sink_step demangle target_lang) []

/-- The `int(called_location.split(":")[1])` expression of
`Analysis.analysis_func`: an `IndexError` when there is no second
`':'`-separated field, a `ValueError` when that field is not an integer. -/
def parse_called_location_lineno (called_location : String) : Except PyErr Int :=
  match (pySplit ':' called_location)[1]? with
  | none => Except.error PyErr.indexError
  | some s =>
      match pyInt s with
      | none => Except.error PyErr.valueError
      | some n => Except.ok n

/-- The per-occurrence caller loop of `Analysis.analysis_func` (lines
370-379): walk the incoming references; a `ValueError` from the line parse
skips that caller (`continue`), any other error propagates; the first
caller whose line is hit sets `fuzzer_hit` and breaks. -/
def coverage_hit_loop (cov : String → Int → Bool) (incoming : List String)
    (called_location : String) : Except PyErr Bool :=
  match incoming with
  | [] => Except.ok false
  | parent_func :: rest =>
      match parse_called_location_lineno called_location with
      | Except.error PyErr.valueError => coverage_hit_loop cov rest called_location
      | Except.error e => Except.error e
      | Except.ok lineno =>
          if cov parent_func lineno then Except.ok true
          else coverage_hit_loop cov rest called_location

/-- The `list_of_fuzzer_covered` expression of `Analysis.analysis_func`
(line 380): the full `reached_by_fuzzers` list when hit, else the explicit
`[""]` marker. -/
def list_of_fuzzer_covered_of (reached_by_fuzzers : List String)
    (fuzzer_hit : Bool) : List String :=
  if fuzzer_hit then reached_by_fuzzers else [""]

/-- Modelled from the spec: `html_helpers.html_add_header_with_link` is an
out-of-scope rendering collaborator; only that it returns a string matters
to the analysed core. -/
def html_add_header_with_link (title : String) (level : Nat) : String :=
  "<h" ++ toString level ++ ">" ++ title ++ "</h" ++ toString level ++ ">"

/-- Modelled from the spec: `html_helpers.html_create_table_head` is an
out-of-scope rendering collaborator returning the table-head markup. -/
def html_create_table_head (table_id : String)
    (columns : List (String × String)) : String :=
  "<table id=" ++ table_id ++ ">" ++
    String.intercalate "" (columns.map (fun c => "<th>" ++ c.1 ++ "</th>"))

/-- Modelled from the spec: `html_helpers.html_table_add_row` is an
out-of-scope rendering collaborator returning one table row. -/
def html_table_add_row (cells : List String) : String :=
  "<tr>" ++ String.intercalate "" (cells.map (fun c => "<td>" ++ c ++ "</td>")) ++ "</tr>"

/-- The inner row loop of `Analysis.analysis_func` (lines 368-387) for one
sink function: one table row per called location, computing `fuzzer_hit`
through `coverage_hit_loop` and the covered-fuzzer list through
`list_of_fuzzer_covered_of`. -/
def analysis_rows_for_function (cov : String → Int → Bool)
    (reachable_function_list : List String) (fd : FunctionProfile) :
    List String → Except PyErr String
  | [] => Except.ok ""
  | called_location :: rest =>
      match coverage_hit_loop cov fd.incoming_references called_location with
      | Except.error e => Except.error e
      | Except.ok fuzzer_hit =>
          let covered := list_of_fuzzer_covered_of fd.reached_by_fuzzers fuzzer_hit
          match analysis_rows_for_function cov reachable_function_list fd rest with
          | Except.error e => Except.error e
          | Except.ok tail_rows =>
              Except.ok (html_table_add_row
                [fd.function_name,
                 called_location,
                 pyStrBool (reachable_function_list.contains called_location),
                 pyReprList covered] ++ tail_rows)

/-- The outer row loop of `Analysis.analysis_func` (line 366 onward): for
each retained sink function, iterate
`function_callsite_dict[fd.function_name]` (a `KeyError` when absent). -/
def analysis_rows (cov : String → Int → Bool)
    (reachable_function_list : List String)
    (function_callsite_dict : PyDict (List String)) :
    List FunctionProfile → Except PyErr String
  | [] => Except.ok ""
  | fd :: rest =>
      match pdGet function_callsite_dict fd.function_name with
      | none => Except.error PyErr.keyError
      | some called_locations =>
          match analysis_rows_for_function cov reachable_function_list fd
              called_locations with
          | Except.error e => Except.error e
          | Except.ok rows =>
              match analysis_rows cov reachable_function_list
                  function_callsite_dict rest with
              | Except.error e => Except.error e
              | Except.ok more => Except.ok (rows ++ more)

/-- `Analysis.analysis_func`: aggregate, index, resolve reachability, then
render the report table; `profiles[0].target_lang` raises an `IndexError`
on an empty profile list.  The parameters that only feed the out-of-scope
renderer (`toc_list`, `basefolder`, `coverage_url`, `conclusions`) are
omitted; `demangle` stands for the external `utils.demangle_cpp_func`. -/
def analysis_func (demangle : String → String) (tables : List String)
    (proj_profile : MergedProjectProfile) (profiles : List FuzzerProfile) :
    Except PyErr String :=
  let data := retrieve_data_list proj_profile profiles
  let callsite_list := data.1
  let function_list := data.2
  let function_callsite_dict := map_function_callsite function_list callsite_list
  match retrieve_reachable_functions function_list function_callsite_dict with
  | Except.error e => Except.error e
  | Except.ok reachable_function_list =>
      let html_string := "" ++ "<div class=\"report-box\">"
      let html_string := html_string ++
        html_add_header_with_link "Function call coverage" 1
      let html_string := html_string ++ "<div class=\"collapsible\">"
      let html_string := html_string ++
        "<p>This section shows a chosen list of functions / methods calls " ++
        "and their relative coverage information.</p>"
      let html_string := html_string ++
        html_add_header_with_link "Function in each files in report" 2
      let tables := tables ++ ["myTable" ++ toString tables.length]
      let html_string := html_string ++ html_create_table_head (tables.getLastD "")
        [("Target sink", ""),
         ("Callsite location", "Source file, line number and parent function."),
         ("Reached by fuzzer", "Is this code reachable by any functions?"),
         ("Covered by Fuzzers", "The specific list of fuzzers that cover this function call.")]
      match profiles with
      | [] => Except.error PyErr.indexError
      | profile0 :: _ =>
          match analysis_rows proj_profile.runtime_coverage reachable_function_list
              function_callsite_dict
              (filter_function_list demangle function_list profile0.target_lang) with
          | Except.error e => Except.error e
          | Except.ok rows =>
              Except.ok (html_string ++ rows ++ "</table>" ++ "</div>" ++ "</div>")

/-- First-occurrence de-duplication by registry key, recording function
names as seen, written as lookahead-free recursion; the reference model
for the aggregation loops of `retrieve_data_list`. -/
def dedupFirstGo (function_name_list : List String) :
    List (String × FunctionProfile) → List FunctionProfile
  | [] => []
  | kv :: rest =>
      if kv.1 ∈ function_name_list then dedupFirstGo function_name_list rest
      else kv.2 :: dedupFirstGo (function_name_list ++ [kv.2.function_name]) rest

theorem str_data_append (s t : String) : (s ++ t).data = s.data ++ t.data := by
  cases s; cases t; rfl

theorem except_ok_bind {α β ε : Type} (a : α) (f : α → Except ε β) :
    (Except.ok (ε := ε) a >>= f) = f a := rfl

theorem pdGet_pdSet {α : Type} (d : PyDict α) (k k2 : String) (v : α) :
    pdGet (pdSet d k v) k2 = if k = k2 then some v else pdGet d k2 := by
  induction d with
  | nil => by_cases h : k = k2 <;> simp [pdSet, pdGet, h]
  | cons kv rest ih =>
      obtain ⟨k3, v3⟩ := kv
      by_cases h3 : k3 = k
      · subst h3
        by_cases h : k3 = k2 <;> simp [pdSet, pdGet, h]
      · by_cases h : k3 = k2
        · subst h
          simp [pdSet, pdGet, h3, Ne.symm h3]
        · simp [pdSet, pdGet, h3, h, ih]

theorem pdHasKey_pdSet {α : Type} (d : PyDict α) (k k2 : String) (v : α) :
    pdHasKey (pdSet d k v) k2 = (k = k2 || pdHasKey d k2) := by
  by_cases h : k = k2 <;> simp [pdHasKey, pdGet_pdSet, h]

theorem pdGet_map_values {α β : Type} (d : PyDict α) (f : α → β) (k : String) :
    pdGet (d.map (fun kv => (kv.1, f kv.2))) k = (pdGet d k).map f := by
  induction d with
  | nil => rfl
  | cons kv rest ih =>
      obtain ⟨k2, v⟩ := kv
      by_cases h : k2 = k <;> simp [pdGet, h, ih]

theorem pdHasKey_map_values {α β : Type} (d : PyDict α) (f : α → β) (k : String) :
    pdHasKey (d.map (fun kv => (kv.1, f kv.2))) k = pdHasKey d k := by
  simp [pdHasKey, pdGet_map_values]

theorem mem_pyListSetGo (seen l : List String) (s : String)
    (h : s ∈ pyListSetGo seen l) : s ∈ l := by
  induction l generalizing seen with
  | nil => simp [pyListSetGo] at h
  | cons x rest ih =>
      simp only [pyListSetGo] at h
      by_cases hx : x ∈ seen
      · simp only [if_pos hx] at h
        exact List.mem_cons_of_mem _ (ih _ h)
      · simp only [if_neg hx, List.mem_cons] at h
        rcases h with h | h
        · exact h ▸ List.mem_cons_self _ _
        · exact List.mem_cons_of_mem _ (ih _ h)

theorem mem_pyListSet (l : List String) (s : String) (h : s ∈ pyListSet l) :
    s ∈ l :=
  mem_pyListSetGo [] l s h

theorem getElem_one_of_two_le {α : Type} (l : List α) (h : 2 ≤ l.length) :
    ∃ t, l[1]? = some t := by
  match l, h with
  | a :: b :: rest, _ => exact ⟨b, by simp⟩

theorem initfold_hasKey (functions : List FunctionProfile)
    (d : PyDict (List String)) (k : String) :
    pdHasKey (functions.foldl (fun d function => pdSet d function.function_name []) d) k = true ↔
      k ∈ functions.map (fun f => f.function_name) ∨ pdHasKey d k = true := by
  induction functions generalizing d with
  | nil => simp
  | cons f rest ih =>
      simp only [List.foldl_cons, List.map_cons, List.mem_cons]
      rw [ih]
      rw [pdHasKey_pdSet]
      by_cases h : f.function_name = k
      · simp [h]
      · simp [h, Ne.symm h]

theorem initfold_get_empty (functions : List FunctionProfile)
    (d : PyDict (List String)) (k : String) (l : List String)
    (h : pdGet (functions.foldl (fun d function => pdSet d function.function_name []) d) k = some l) :
    l = [] ∨ pdGet d k = some l := by
  induction functions generalizing d with
  | nil => exact Or.inr h
  | cons f rest ih =>
      simp only [List.foldl_cons] at h
      rcases ih _ h with h2 | h2
      · exact Or.inl h2
      · rw [pdGet_pdSet] at h2
        by_cases hk : f.function_name = k
        · rw [if_pos hk] at h2
          exact Or.inl (Option.some.inj h2).symm
        · rw [if_neg hk] at h2
          exact Or.inr h2

theorem csfold_hasKey (callsites : List CalltreeCallsite)
    (d : PyDict (List String)) (k : String) :
    pdHasKey (callsites.foldl map_callsite_step d) k = pdHasKey d k := by
  induction callsites generalizing d with
  | nil => rfl
  | cons cs rest ih =>
      simp only [List.foldl_cons]
      rw [ih]
      unfold map_callsite_step
      by_cases h : pdHasKey d cs.dst_function_name = true
      · rw [if_pos h, pdHasKey_pdSet]
        by_cases hk : cs.dst_function_name = k
        · subst hk
          simp [h]
        · simp [hk]
      · rw [if_neg h]

theorem csfold_provenance (callsites : List CalltreeCallsite)
    (d : PyDict (List String)) (k : String) (l : List String) (s : String)
    (h : pdGet (callsites.foldl map_callsite_step d) k = some l) (hs : s ∈ l) :
    (∃ cs ∈ callsites, cs.dst_function_name = k ∧ callsite_descriptor cs = s) ∨
      (∃ l0, pdGet d k = some l0 ∧ s ∈ l0) := by
  induction callsites generalizing d l with
  | nil => exact Or.inr ⟨l, h, hs⟩
  | cons cs rest ih =>
      simp only [List.foldl_cons] at h
      rcases ih _ _ h hs with h2 | h2
      · obtain ⟨cs2, hmem, hdst, hdesc⟩ := h2
        exact Or.inl ⟨cs2, List.mem_cons_of_mem _ hmem, hdst, hdesc⟩
      · obtain ⟨l0, hget, hsl0⟩ := h2
        unfold map_callsite_step at hget
        by_cases hk : pdHasKey d cs.dst_function_name = true
        · rw [if_pos hk, pdGet_pdSet] at hget
          by_cases hkk : cs.dst_function_name = k
          · rw [if_pos hkk] at hget
            have hl0 : ((pdGet d cs.dst_function_name).getD [] ++ [callsite_descriptor cs]) = l0 :=
              Option.some.inj hget
            rw [← hl0] at hsl0
            rcases List.mem_append.mp hsl0 with hold | hnew
            · obtain ⟨old, hold2⟩ := Option.isSome_iff_exists.mp hk
              rw [hold2] at hold
              exact Or.inr ⟨old, hkk ▸ hold2, by simpa using hold⟩
            · have : s = callsite_descriptor cs := by simpa using hnew
              exact Or.inl ⟨cs, List.mem_cons_self _ _, hkk, this.symm⟩
          · rw [if_neg hkk] at hget
            exact Or.inr ⟨l0, hget, hsl0⟩
        · rw [if_neg hk] at hget
          exact Or.inr ⟨l0, hget, hsl0⟩

theorem map_function_callsite_hasKey (functions : List FunctionProfile)
    (callsites : List CalltreeCallsite) (k : String) :
    pdHasKey (map_function_callsite functions callsites) k = true ↔
      k ∈ functions.map (fun f => f.function_name) := by
  unfold map_function_callsite
  rw [pdHasKey_map_values, csfold_hasKey, initfold_hasKey]
  simp [pdHasKey, pdGet]

theorem map_function_callsite_values (functions : List FunctionProfile)
    (callsites : List CalltreeCallsite) (k : String) (l : List String)
    (h : pdGet (map_function_callsite functions callsites) k = some l) :
    ∀ s ∈ l, ∃ cs ∈ callsites, cs.dst_function_name = k ∧ callsite_descriptor cs = s := by
  intro s hs
  unfold map_function_callsite at h
  rw [pdGet_map_values] at h
  cases hraw : pdGet (callsites.foldl map_callsite_step
      (functions.foldl (fun d function => pdSet d function.function_name []) [])) k with
  | none => rw [hraw] at h; exact absurd h (by simp)
  | some raw =>
      rw [hraw] at h
      have hl : pyListSet raw = l := by simpa using h
      have hsraw : s ∈ raw := mem_pyListSet raw s (hl ▸ hs)
      rcases csfold_provenance _ _ _ _ _ hraw hsraw with h2 | h2
      · exact h2
      · obtain ⟨l0, hget, hsl0⟩ := h2
        rcases initfold_get_empty _ _ _ _ hget with h3 | h3
        · subst h3
          exact absurd hsl0 (by simp)
        · rw [pdGet] at h3
          exact absurd h3 (by simp)

theorem colon_mem_descriptor (cs : CalltreeCallsite) :
    ':' ∈ (callsite_descriptor cs).data := by
  unfold callsite_descriptor
  simp only [str_data_append, List.mem_append]
  have h : ':' ∈ (":" : String).data := by decide
  tauto

theorem splitCharList_cons_sep (sep : Char) (rest : List Char) :
    splitCharList sep (sep :: rest) = [] :: splitCharList sep rest := by
  simp [splitCharList]

theorem splitCharList_cons_ne (sep c : Char) (rest : List Char) (hc : c ≠ sep) :
    splitCharList sep (c :: rest) =
      match splitCharList sep rest with
      | [] => [[c]]
      | h :: t => (c :: h) :: t := by
  simp [splitCharList, hc]

theorem splitCharList_ne_nil (sep : Char) (l : List Char) :
    splitCharList sep l ≠ [] := by
  cases l with
  | nil => simp [splitCharList]
  | cons c rest =>
      by_cases hc : c = sep
      · rw [hc, splitCharList_cons_sep]
        simp
      · rw [splitCharList_cons_ne sep c rest hc]
        cases splitCharList sep rest <;> simp

theorem splitCharList_length_two (sep : Char) (l : List Char) (h : sep ∈ l) :
    2 ≤ (splitCharList sep l).length := by
  induction l with
  | nil => simp at h
  | cons c rest ih =>
      by_cases hc : c = sep
      · rw [hc, splitCharList_cons_sep]
        have h2 : splitCharList sep rest ≠ [] := splitCharList_ne_nil sep rest
        have h3 : 1 ≤ (splitCharList sep rest).length := List.length_pos.mpr h2
        simp only [List.length_cons]
        omega
      · rw [splitCharList_cons_ne sep c rest hc]
        have hrest : sep ∈ rest := by
          rcases List.mem_cons.mp h with h1 | h1
          · exact absurd h1.symm hc
          · exact h1
        have h2 := ih hrest
        cases hr : splitCharList sep rest with
        | nil => rw [hr] at h2; simp at h2
        | cons a t =>
            rw [hr] at h2
            simp only [List.length_cons] at h2 ⊢
            omega

theorem second_field_of_colon (s : String) (h : ':' ∈ s.data) :
    ∃ t, (pySplit ':' s)[1]? = some t := by
  unfold pySplit
  have h2 := splitCharList_length_two ':' s.data h
  have h3 : 2 ≤ ((splitCharList ':' s.data).map String.mk).length := by
    simpa using h2
  exact getElem_one_of_two_le _ h3

theorem foldlM_ok_of_steps {α β : Type} (l : List α) (f : β → α → Except PyErr β)
    (h : ∀ b a, a ∈ l → ∃ b2, f b a = Except.ok b2) :
    ∀ b, ∃ b2, l.foldlM f b = Except.ok b2 := by
  induction l with
  | nil => intro b; exact ⟨b, rfl⟩
  | cons a rest ih =>
      intro b
      obtain ⟨b2, hb2⟩ := h b a (List.mem_cons_self _ _)
      obtain ⟨b3, hb3⟩ := ih (fun b a2 ha => h b a2 (List.mem_cons_of_mem _ ha)) b2
      refine ⟨b3, ?_⟩
      rw [List.foldlM_cons, hb2, except_ok_bind, hb3]

theorem reachable_check_step_ok (fcs : PyDict (List String))
    (acc : List String) (pair : String × String)
    (h : pdHasKey fcs pair.1 = true) :
    ∃ r, reachable_check_step fcs acc pair = Except.ok r := by
  obtain ⟨lst, hlst⟩ := Option.isSome_iff_exists.mp h
  unfold reachable_check_step
  rw [hlst]
  by_cases hmem : pair.2 ∈ lst
  · exact ⟨acc ++ pyIterString pair.2, by simp [hmem, pure, Except.pure]⟩
  · exact ⟨acc, by simp [hmem, pure, Except.pure]⟩

theorem reachable_ok (functions : List FunctionProfile)
    (fcs : PyDict (List String))
    (h : ∀ f ∈ functions, ∀ p ∈ f.callsite, pdHasKey fcs p.1 = true) :
    ∃ r, retrieve_reachable_functions functions fcs = Except.ok r := by
  unfold retrieve_reachable_functions
  have houter := foldlM_ok_of_steps functions
    (fun acc function => function.callsite.foldlM (reachable_check_step fcs) acc)
    (fun b f hf =>
      foldlM_ok_of_steps f.callsite (reachable_check_step fcs)
        (fun b2 p hp => reachable_check_step_ok fcs b2 p (h f hf p hp)) b)
  obtain ⟨v, hv⟩ := houter []
  rw [hv, except_ok_bind]
  exact ⟨pyListSet v, rfl⟩

theorem coverage_hit_loop_ok (cov : String → Int → Bool)
    (incoming : List String) (loc : String) (t : String)
    (h : (pySplit ':' loc)[1]? = some t) :
    ∃ b, coverage_hit_loop cov incoming loc = Except.ok b := by
  have hparse : parse_called_location_lineno loc =
      (match pyInt t with
       | none => Except.error PyErr.valueError
       | some n => Except.ok n) := by
    unfold parse_called_location_lineno
    rw [h]
  induction incoming with
  | nil => exact ⟨false, rfl⟩
  | cons p rest ih =>
      obtain ⟨b, hb⟩ := ih
      cases hint : pyInt t with
      | none =>
          refine ⟨b, ?_⟩
          unfold coverage_hit_loop
          rw [hparse, hint]
          exact hb
      | some n =>
          by_cases hc : cov p n
          · refine ⟨true, ?_⟩
            unfold coverage_hit_loop
            rw [hparse, hint]
            simp [hc]
          · refine ⟨b, ?_⟩
            unfold coverage_hit_loop
            rw [hparse, hint]
            simp only [hc]
            simpa using hb

theorem analysis_rows_for_function_ok (cov : String → Int → Bool)
    (reach : List String) (fd : FunctionProfile) (locs : List String)
    (h : ∀ s ∈ locs, ∃ t, (pySplit ':' s)[1]? = some t) :
    ∃ r, analysis_rows_for_function cov reach fd locs = Except.ok r := by
  induction locs with
  | nil => exact ⟨"", rfl⟩
  | cons loc rest ih =>
      obtain ⟨t, ht⟩ := h loc (List.mem_cons_self _ _)
      obtain ⟨b, hb⟩ := coverage_hit_loop_ok cov fd.incoming_references loc t ht
      obtain ⟨r, hr⟩ := ih (fun s hs => h s (List.mem_cons_of_mem _ hs))
      refine ⟨html_table_add_row
        [fd.function_name, loc, pyStrBool (reach.contains loc),
         pyReprList (list_of_fuzzer_covered_of fd.reached_by_fuzzers b)] ++ r, ?_⟩
      simp only [analysis_rows_for_function]
      rw [hb, hr]

theorem analysis_rows_ok (cov : String → Int → Bool) (reach : List String)
    (fcd : PyDict (List String)) (sinks : List FunctionProfile)
    (h : ∀ fd ∈ sinks, ∃ locs, pdGet fcd fd.function_name = some locs ∧
        ∀ s ∈ locs, ∃ t, (pySplit ':' s)[1]? = some t) :
    ∃ r, analysis_rows cov reach fcd sinks = Except.ok r := by
  induction sinks with
  | nil => exact ⟨"", rfl⟩
  | cons fd rest ih =>
      obtain ⟨locs, hlocs, hfields⟩ := h fd (List.mem_cons_self _ _)
      obtain ⟨r1, hr1⟩ := analysis_rows_for_function_ok cov reach fd locs hfields
      obtain ⟨r2, hr2⟩ := ih (fun g hg => h g (List.mem_cons_of_mem _ hg))
      refine ⟨r1 ++ r2, ?_⟩
      simp [analysis_rows, hlocs, hr1, hr2]

theorem filter_sink_step_cases (demangle : String → String)
    (target_lang : String) (acc : List FunctionProfile) (fd : FunctionProfile) :
    filter_sink_step demangle target_lang acc fd = acc ∨
      filter_sink_step demangle target_lang acc fd = acc ++ [fd] := by
  unfold filter_sink_step
  cases hkey : (if target_lang = "c-cpp" then some ("", demangle fd.function_name)
      else if target_lang = "python" then
        some (fd.function_source_file, fd.function_name)
      else if target_lang = "jvm" then some (jvm_sink_key fd.function_name)
      else none) with
  | none => exact Or.inl rfl
  | some pk =>
      by_cases hin : pk ∈ (pdGet SINK_FUNCTION target_lang).getD []
      · right
        show (if pk ∈ (pdGet SINK_FUNCTION target_lang).getD [] then acc ++ [fd]
          else acc) = acc ++ [fd]
        rw [if_pos hin]
      · left
        show (if pk ∈ (pdGet SINK_FUNCTION target_lang).getD [] then acc ++ [fd]
          else acc) = acc
        rw [if_neg hin]

theorem mem_foldl_of_step_cases {α : Type} (step : List α → α → List α)
    (hstep : ∀ acc x, step acc x = acc ∨ step acc x = acc ++ [x]) :
    ∀ (l acc : List α) (y : α), y ∈ l.foldl step acc → y ∈ acc ∨ y ∈ l := by
  intro l
  induction l with
  | nil => intro acc y h; exact Or.inl h
  | cons x rest ih =>
      intro acc y h
      simp only [List.foldl_cons] at h
      rcases ih _ _ h with h2 | h2
      · rcases hstep acc x with h3 | h3
        · rw [h3] at h2
          exact Or.inl h2
        · rw [h3] at h2
          rcases List.mem_append.mp h2 with h4 | h4
          · exact Or.inl h4
          · exact Or.inr (by simpa using List.mem_cons.mpr (Or.inl (by simpa using h4)))
      · exact Or.inr (List.mem_cons_of_mem _ h2)

theorem filter_function_list_subset (demangle : String → String)
    (functions : List FunctionProfile) (target_lang : String)
    (fd : FunctionProfile)
    (h : fd ∈ filter_function_list demangle functions target_lang) :
    fd ∈ functions := by
  unfold filter_function_list at h
  rcases mem_foldl_of_step_cases (filter_sink_step demangle target_lang)
      (filter_sink_step_cases demangle target_lang) functions [] fd h with h2 | h2
  · simp at h2
  · exact h2

theorem string_mk_data (l : List Char) : (String.mk l).data = l := rfl

theorem splitCharList_head (sep : Char) (l : List Char) :
    ∃ t, splitCharList sep l = (l.takeWhile (fun c => c ≠ sep)) :: t := by
  induction l with
  | nil => exact ⟨[], rfl⟩
  | cons c rest ih =>
      by_cases hc : c = sep
      · refine ⟨splitCharList sep rest, ?_⟩
        rw [hc, splitCharList_cons_sep]
        simp
      · obtain ⟨t, ht⟩ := ih
        refine ⟨t, ?_⟩
        rw [splitCharList_cons_ne sep c rest hc, ht]
        simp [hc]

theorem join_split (sep : Char) (l : List Char) :
    joinWithSep sep (splitCharList sep l) = l := by
  induction l with
  | nil => rfl
  | cons c rest ih =>
      by_cases hc : c = sep
      · rw [hc, splitCharList_cons_sep]
        cases hr : splitCharList sep rest with
        | nil => exact absurd hr (splitCharList_ne_nil sep rest)
        | cons a t =>
            rw [hr] at ih
            simp only [joinWithSep]
            rw [ih]
            simp
      · rw [splitCharList_cons_ne sep c rest hc]
        cases hr : splitCharList sep rest with
        | nil => exact absurd hr (splitCharList_ne_nil sep rest)
        | cons a t =>
            rw [hr] at ih
            cases t with
            | nil =>
                simp only [joinWithSep] at ih ⊢
                rw [ih]
            | cons b t2 =>
                simp only [joinWithSep] at ih ⊢
                rw [← ih]
                simp

theorem mem_splitCharList_no_sep (sep : Char) (l : List Char) (p : List Char)
    (hp : p ∈ splitCharList sep l) : sep ∉ p := by
  induction l generalizing p with
  | nil =>
      simp only [splitCharList, List.mem_singleton] at hp
      subst hp
      simp
  | cons c rest ih =>
      by_cases hc : c = sep
      · rw [hc, splitCharList_cons_sep] at hp
        rcases List.mem_cons.mp hp with h1 | h1
        · subst h1; simp
        · exact ih p h1
      · rw [splitCharList_cons_ne sep c rest hc] at hp
        cases hr : splitCharList sep rest with
        | nil => exact absurd hr (splitCharList_ne_nil sep rest)
        | cons a t =>
            rw [hr] at hp
            rcases List.mem_cons.mp hp with h1 | h1
            · subst h1
              intro hmem
              rcases List.mem_cons.mp hmem with h2 | h2
              · exact hc h2.symm
              · exact ih a (hr ▸ List.mem_cons_self _ _) h2
            · exact ih p (hr ▸ List.mem_cons_of_mem _ h1)

theorem join_concat (sep : Char) (ps : List (List Char)) (lastp : List Char)
    (h : ps ≠ []) :
    joinWithSep sep (ps ++ [lastp]) = joinWithSep sep ps ++ sep :: lastp := by
  induction ps with
  | nil => exact absurd rfl h
  | cons x xs ih =>
      cases xs with
      | nil => simp [joinWithSep]
      | cons y ys =>
          have h2 : (y :: ys : List (List Char)) ≠ [] := by simp
          have step1 : joinWithSep sep ((x :: y :: ys) ++ [lastp]) =
              x ++ sep :: joinWithSep sep ((y :: ys) ++ [lastp]) := rfl
          rw [step1, ih h2]
          simp only [joinWithSep]
          simp

theorem takeWhile_append_no_sep (sep : Char) (a b : List Char) (h : sep ∉ a) :
    (a ++ sep :: b).takeWhile (fun c => c ≠ sep) = a := by
  induction a with
  | nil => simp
  | cons x xs ih =>
      have hx : x ≠ sep := fun he => h (he ▸ List.mem_cons_self _ _)
      have hxs : sep ∉ xs := fun he => h (List.mem_cons_of_mem _ he)
      rw [List.cons_append, List.takeWhile_cons_of_pos (by simp [hx]), ih hxs]

theorem dropWhile_append_no_sep (sep : Char) (a b : List Char) (h : sep ∉ a) :
    (a ++ sep :: b).dropWhile (fun c => c ≠ sep) = sep :: b := by
  induction a with
  | nil => simp
  | cons x xs ih =>
      have hx : x ≠ sep := fun he => h (he ▸ List.mem_cons_self _ _)
      have hxs : sep ∉ xs := fun he => h (List.mem_cons_of_mem _ he)
      rw [List.cons_append, List.dropWhile_cons_of_pos (by simp [hx]), ih hxs]

theorem getLastD_concat_self {α : Type} (l : List α) (a : α) (d : α) :
    (l ++ [a]).getLastD d = a := by
  induction l generalizing d with
  | nil => rfl
  | cons x xs ih =>
      simp only [List.cons_append, List.getLastD_cons]
      exact ih x

theorem jvm_sink_key_eq_spec (raw : String) :
    jvm_sink_key raw = jvm_sink_key_spec raw := by
  obtain ⟨t, ht⟩ := splitCharList_head '(' raw.data
  have hfn : (pySplit '(' raw).headD "" =
      String.mk (raw.data.takeWhile (fun c => c ≠ '(')) := by
    unfold pySplit
    rw [ht]
    rfl
  set S := raw.data.takeWhile (fun c => c ≠ '(') with hS
  by_cases hdot : '.' ∈ S
  · set parts := splitCharList '.' S with hparts
    have hne : parts ≠ [] := splitCharList_ne_nil '.' S
    have hlen : 2 ≤ parts.length := splitCharList_length_two '.' S hdot
    set lastp := parts.getLast hne with hlast
    set ps := parts.dropLast with hpsdef
    have hdec : ps ++ [lastp] = parts := List.dropLast_append_getLast hne
    have hps : ps ≠ [] := by
      intro hnil
      have h3 : parts.length - 1 = 0 := by
        rw [← List.length_dropLast, ← hpsdef, hnil]
        rfl
      omega
    have hjoin : joinWithSep '.' parts = S := join_split '.' S
    have hnos : '.' ∉ lastp :=
      mem_splitCharList_no_sep '.' S lastp (List.getLast_mem hne)
    have hstripped : S = joinWithSep '.' ps ++ '.' :: lastp := by
      conv_lhs => rw [← hjoin, ← hdec]
      rw [join_concat _ _ _ hps]
    have hnosr : '.' ∉ lastp.reverse := by simpa using hnos
    have hrev : S.reverse = lastp.reverse ++ '.' :: (joinWithSep '.' ps).reverse := by
      conv_lhs => rw [hstripped]
      simp
    have htw := takeWhile_append_no_sep '.' lastp.reverse (joinWithSep '.' ps).reverse hnosr
    have hdw := dropWhile_append_no_sep '.' lastp.reverse (joinWithSep '.' ps).reverse hnosr
    have hlastD : parts.getLastD [] = lastp := by
      conv_lhs => rw [← hdec]
      exact getLastD_concat_self _ _ _
    simp only [jvm_sink_key, jvm_sink_key_spec]
    rw [hfn]
    simp only [string_mk_data]
    rw [if_pos hdot, if_pos hdot, ← hparts, hlastD, ← hpsdef, hrev, htw, hdw]
    simp
  · simp only [jvm_sink_key, jvm_sink_key_spec]
    rw [hfn]
    simp only [string_mk_data]
    rw [if_neg hdot, if_neg hdot]

theorem aggregate_foldl_eq_dedup (l : List (String × FunctionProfile))
    (fl : List FunctionProfile) (fnl : List String) :
    l.foldl aggregate_function_step (fl, fnl) =
      (fl ++ dedupFirstGo fnl l,
       fnl ++ (dedupFirstGo fnl l).map (fun f => f.function_name)) := by
  induction l generalizing fl fnl with
  | nil => simp [dedupFirstGo]
  | cons kv rest ih =>
      simp only [List.foldl_cons, dedupFirstGo]
      by_cases hk : kv.1 ∈ fnl
      · simp [aggregate_function_step, hk, ih]
      · simp [aggregate_function_step, hk, ih]

theorem profile_fold_functions (profiles : List FuzzerProfile)
    (c : List CalltreeCallsite) (fs : List FunctionProfile × List String) :
    (profiles.foldl
      (fun st profile =>
        ((match profile.function_call_depths with
          | some depths => st.1 ++ extract_all_callsites depths
          | none => st.1),
         profile.all_class_functions.foldl aggregate_function_step st.2))
      (c, fs)).2 =
    (profiles.flatMap (fun p => p.all_class_functions)).foldl aggregate_function_step fs := by
  induction profiles generalizing c fs with
  | nil => simp
  | cons p rest ih =>
      rw [List.flatMap_cons, List.foldl_append]
      simp only [List.foldl_cons]
      exact ih _ _

theorem retrieve_data_list_functions (proj_profile : MergedProjectProfile)
    (profiles : List FuzzerProfile) :
    (retrieve_data_list proj_profile profiles).2 =
      dedupFirstGo []
        (proj_profile.all_functions ++
          profiles.flatMap (fun p => p.all_class_functions)) := by
  simp only [retrieve_data_list]
  have h1 := profile_fold_functions profiles []
    (proj_profile.all_functions.foldl aggregate_function_step ([], []))
  have h2 := congrArg Prod.fst h1
  rw [h2, ← List.foldl_append, aggregate_foldl_eq_dedup]
  simp

theorem dedupFirstGo_filter (l : List (String × FunctionProfile))
    (fnl : List String) (n : String)
    (hk : ∀ p ∈ l, p.1 = p.2.function_name) :
    (dedupFirstGo fnl l).filter (fun f => f.function_name == n) =
      if n ∈ fnl then []
      else ((l.map Prod.snd).filter (fun f => f.function_name == n)).take 1 := by
  induction l generalizing fnl with
  | nil => simp [dedupFirstGo]
  | cons kv rest ih =>
      have hkv : kv.1 = kv.2.function_name := hk kv (List.mem_cons_self _ _)
      have hkrest : ∀ p ∈ rest, p.1 = p.2.function_name :=
        fun p hp => hk p (List.mem_cons_of_mem _ hp)
      simp only [dedupFirstGo, List.map_cons]
      by_cases hmem : kv.1 ∈ fnl
      · rw [if_pos hmem, ih _ hkrest]
        by_cases hn : n ∈ fnl
        · rw [if_pos hn, if_pos hn]
        · rw [if_neg hn, if_neg hn]
          have hne : ¬(kv.2.function_name = n) := by
            intro he
            exact hn (he ▸ hkv ▸ hmem)
          simp [List.filter_cons, hne]
      · rw [if_neg hmem]
        by_cases heq : kv.2.function_name = n
        · have hn : ¬(n ∈ fnl) := by
            intro hc
            exact hmem (by rw [hkv, heq]; exact hc)
          rw [if_neg hn]
          have hinner := ih (fnl ++ [kv.2.function_name]) hkrest
          have hmem2 : n ∈ fnl ++ [kv.2.function_name] := by
            simp [heq]
          rw [if_pos hmem2] at hinner
          rw [heq] at hinner
          simp only [heq]
          simp [List.filter_cons, hinner]
          simp [heq]
        · have hinner := ih (fnl ++ [kv.2.function_name]) hkrest
          by_cases hn : n ∈ fnl
          · have hmem2 : n ∈ fnl ++ [kv.2.function_name] := by simp [hn]
            rw [if_pos hmem2] at hinner
            rw [if_pos hn]
            simp [List.filter_cons, heq, hinner]
          · have hmem2 : ¬(n ∈ fnl ++ [kv.2.function_name]) := by
              simp only [List.mem_append, List.mem_singleton]
              rintro (hc | hc)
              · exact hn hc
              · exact heq hc.symm
            rw [if_neg hmem2] at hinner
            rw [if_neg hn]
            have hbeq : (kv.2.function_name == n) = false := by
              simp [heq]
            simp [List.filter_cons, hbeq, hinner]

/-- C1: the claim states that a descriptor string confirmed against the
index is added whole to the resolver's result, making the result a subset
of the descriptors stored in the index.  The code instead calls
`function_list.extend(callsite_str)`, which appends the string's
CHARACTERS: on a function whose recorded descriptor `a#b:1` is present in
the index, the resolver returns the five one-character strings, the whole
descriptor is not an element of the result, and the result is not a subset
of the index's descriptors. -/
theorem c1_reachable_extends_characters :
    retrieve_reachable_functions
        [⟨"f", "f.c", [("g", "a#b:1")], [], []⟩]
        [("g", ["a#b:1"]), ("f", [])] =
      Except.ok ["a", "#", "b", ":", "1"] ∧
    ("a#b:1" : String) ∉ (["a", "#", "b", ":", "1"] : List String) ∧
    ("a" : String) ∈ (["a", "#", "b", ":", "1"] : List String) ∧
    ("a" : String) ∉ (["a#b:1"] : List String) :=
  ⟨rfl, by decide, by decide, by decide⟩

/-- C2: the claim states that the enclosing-caller-name segment equals the
call site's own SOURCE-FUNCTION NAME when present.  The code's
`_get_parent_func_name` reads `src_function_source_file` instead: with
source function name `run` and source file `main.py` the segment is
`main.py`; and with the name present but the file absent it still falls
back to the parent's destination name. -/
theorem c2_caller_segment_uses_source_file :
    get_parent_func_name
        (CalltreeCallsite.mk (some "run") (some "main.py") 3 "g" none none) =
      some "main.py" ∧
    (CalltreeCallsite.mk (some "run") (some "main.py") 3 "g" none none).src_function_name =
      some "run" ∧
    ("main.py" : String) ≠ "run" ∧
    get_parent_func_name
        (CalltreeCallsite.mk (some "run") none 3 "g" none
          (some (CalltreeCallsite.mk none none 1 "par" none none))) =
      some "par" :=
  ⟨rfl, rfl, by decide, rfl⟩

/-- C3 counterexample: a function whose outgoing-call mapping names the
callee `h`, which is not a key of the index, makes the resolver raise a
`KeyError` instead of returning normally. -/
theorem c3_counterexample_key_error :
    retrieve_reachable_functions [⟨"f", "f.c", [("h", "d")], [], []⟩]
        [("f", [])] = Except.error PyErr.keyError := rfl

/-- C3 amended: when every callee named in some function's outgoing-call
mapping IS a key of the callsite index, the resolver returns normally (a
descriptor absent from the callee's entry is simply not added); a callee
that is not a key raises a `KeyError` rather than being treated as
unreachable. -/
theorem c3_amended_reachable_ok (functions : List FunctionProfile)
    (function_callsites : PyDict (List String))
    (h : ∀ f ∈ functions, ∀ p ∈ f.callsite,
      pdHasKey function_callsites p.1 = true) :
    ∃ r, retrieve_reachable_functions functions function_callsites =
      Except.ok r :=
  reachable_ok functions function_callsites h

/-- C3 witness: a concrete instance of the amended theorem. -/
theorem c3_witness_reachable_ok :
    ∃ r, retrieve_reachable_functions [⟨"f", "f.c", [("g", "d")], [], []⟩]
        [("g", ["x"])] = Except.ok r :=
  c3_amended_reachable_ok [⟨"f", "f.c", [("g", "d")], [], []⟩]
    [("g", ["x"])] (by decide)

/-- C4 counterexample: the code parses `int(called_location.split(":")[1])`,
the field after the FIRST colon, not the suffix after the final colon.
On the descriptor `main.cpp#ns::run:42` (a C++ caller name containing
`::`) the suffix after the final colon is the parsable `42`, yet the code
raises a `ValueError` (caught as a skip), because the field after the
first colon is the empty string. -/
theorem c4_counterexample_first_colon :
    parse_called_location_lineno "main.cpp#ns::run:42" =
      Except.error PyErr.valueError ∧
    String.mk (("main.cpp#ns::run:42".data.reverse.takeWhile
        (fun c => c ≠ ':')).reverse) = "42" ∧
    pyInt "42" = some 42 :=
  ⟨rfl, by decide, rfl⟩

/-- C4 amended: the line number is parsed as the SECOND colon-separated
field of the descriptor (the text after the first colon); when that field
is not parsable as an integer the parse raises `ValueError`, which the
caller loop catches per caller, so the loop returns normally with no hit. -/
theorem c4_amended_second_field (s t : String)
    (h : (pySplit ':' s)[1]? = some t) :
    parse_called_location_lineno s =
      (match pyInt t with
       | none => Except.error PyErr.valueError
       | some n => Except.ok n) ∧
    (pyInt t = none → ∀ (cov : String → Int → Bool) (incoming : List String),
      coverage_hit_loop cov incoming s = Except.ok false) := by
  have hparse : parse_called_location_lineno s =
      (match pyInt t with
       | none => Except.error PyErr.valueError
       | some n => Except.ok n) := by
    unfold parse_called_location_lineno
    rw [h]
  refine ⟨hparse, ?_⟩
  intro hnone cov incoming
  induction incoming with
  | nil => rfl
  | cons p rest ih =>
      unfold coverage_hit_loop
      rw [hparse, hnone]
      exact ih

/-- C4 witness: a concrete instance of the amended theorem. -/
theorem c4_witness_second_field :
    parse_called_location_lineno "a#b:zz" = Except.error PyErr.valueError ∧
    coverage_hit_loop (fun _ _ => true) ["p"] "a#b:zz" = Except.ok false := by
  have h := c4_amended_second_field "a#b:zz" "zz" (by decide)
  refine ⟨?_, h.2 rfl _ _⟩
  rw [h.1]
  rfl

/-- C5: the claim states that with the source file absent and no parent
node the descriptor's source-file segment is the empty string.  The code
returns the absent value (`None`) unchanged — the `""` normalisation only
runs inside the parent branch — and `"%s"` renders it as the text `None`,
so the descriptor reads `None#None:7`, not `#None:7`. -/
theorem c5_absent_source_file_renders_none :
    get_source_file (CalltreeCallsite.mk none none 7 "g" none none) = none ∧
    callsite_descriptor (CalltreeCallsite.mk none none 7 "g" none none) =
      "None#None:7" ∧
    ("None#None:7" : String) ≠ "#None:7" :=
  ⟨rfl, by decide, by decide⟩

/-- C6 counterexample: on an empty list of fuzz-entry profiles the
analysis evaluates `profiles[0]` and raises an `IndexError` instead of
producing a report string. -/
theorem c6_counterexample_empty_profiles :
    analysis_func (fun s => s) [] ⟨[], fun _ _ => false⟩ [] =
      Except.error PyErr.indexError := rfl

/-- C6 amended: with at least one fuzz-entry profile, and when every
callee name recorded in any aggregated function's outgoing-call mapping is
the name of some aggregated function (so the resolver's `KeyError` of C3
cannot fire), the analysis runs to completion and produces a (possibly
empty) report string. -/
theorem c6_amended_total (demangle : String → String) (tables : List String)
    (proj_profile : MergedProjectProfile) (profiles : List FuzzerProfile)
    (hne : profiles ≠ [])
    (hclosed : ∀ f ∈ (retrieve_data_list proj_profile profiles).2,
      ∀ p ∈ f.callsite,
        p.1 ∈ (retrieve_data_list proj_profile profiles).2.map
          (fun g => g.function_name)) :
    ∃ s, analysis_func demangle tables proj_profile profiles =
      Except.ok s := by
  obtain ⟨p0, ps, rfl⟩ := List.exists_cons_of_ne_nil hne
  have hkeys : ∀ f ∈ (retrieve_data_list proj_profile (p0 :: ps)).2,
      ∀ p ∈ f.callsite,
        pdHasKey (map_function_callsite
          (retrieve_data_list proj_profile (p0 :: ps)).2
          (retrieve_data_list proj_profile (p0 :: ps)).1) p.1 = true := by
    intro f hf p hp
    rw [map_function_callsite_hasKey]
    exact hclosed f hf p hp
  obtain ⟨r, hr⟩ := reachable_ok
    (retrieve_data_list proj_profile (p0 :: ps)).2
    (map_function_callsite (retrieve_data_list proj_profile (p0 :: ps)).2
      (retrieve_data_list proj_profile (p0 :: ps)).1) hkeys
  have hrows : ∃ rr, analysis_rows proj_profile.runtime_coverage r
      (map_function_callsite (retrieve_data_list proj_profile (p0 :: ps)).2
        (retrieve_data_list proj_profile (p0 :: ps)).1)
      (filter_function_list demangle
        (retrieve_data_list proj_profile (p0 :: ps)).2 p0.target_lang) =
      Except.ok rr := by
    apply analysis_rows_ok
    intro fd hfd
    have hfd2 : fd ∈ (retrieve_data_list proj_profile (p0 :: ps)).2 :=
      filter_function_list_subset demangle _ p0.target_lang fd hfd
    have hk : pdHasKey (map_function_callsite
        (retrieve_data_list proj_profile (p0 :: ps)).2
        (retrieve_data_list proj_profile (p0 :: ps)).1) fd.function_name = true := by
      rw [map_function_callsite_hasKey]
      exact List.mem_map.mpr ⟨fd, hfd2, rfl⟩
    obtain ⟨locs, hlocs⟩ := Option.isSome_iff_exists.mp hk
    refine ⟨locs, hlocs, ?_⟩
    intro s hs
    obtain ⟨cs, hcs, hdst, hdesc⟩ := map_function_callsite_values
      (retrieve_data_list proj_profile (p0 :: ps)).2
      (retrieve_data_list proj_profile (p0 :: ps)).1
      fd.function_name locs hlocs s hs
    exact second_field_of_colon s (hdesc ▸ colon_mem_descriptor cs)
  obtain ⟨rr, hrr⟩ := hrows
  cases hfa : analysis_func demangle tables proj_profile (p0 :: ps) with
  | ok s => exact ⟨s, rfl⟩
  | error e =>
      unfold analysis_func at hfa
      dsimp only at hfa
      rw [hr] at hfa
      dsimp only at hfa
      rw [hrr] at hfa
      simp at hfa

/-- C6 witness: a concrete instance of the amended theorem, with one
profile and no functions. -/
theorem c6_witness_total :
    ∃ s, analysis_func (fun s2 => s2) [] ⟨[], fun _ _ => false⟩
        [⟨none, [], "jvm"⟩] = Except.ok s := by
  refine c6_amended_total (fun s2 => s2) [] ⟨[], fun _ _ => false⟩
    [⟨none, [], "jvm"⟩] (List.cons_ne_nil _ _) ?_
  intro f hf
  have h0 : (retrieve_data_list ⟨[], fun _ _ => false⟩
      [⟨none, [], "jvm"⟩]).2 = [] := rfl
  rw [h0] at hf
  exact absurd hf (by simp)

/-- C7: for the `jvm` target language the sink-filter key derivation used
by `filter_function_list` strips the text from the first `(` onward, then
splits on the last `.` into (qualifier, method), with the `default`
package marker when no dot remains — proved as an equivalence between the
source derivation and a derivation written from the spec's words — and in
particular `java.lang.Runtime.exec(Ljava/lang/String;)` derives qualifier
`java.lang.Runtime` and symbol `exec`, so such a function is retained. -/
theorem c7_jvm_sink_key_derivation :
    (∀ raw : String, jvm_sink_key raw = jvm_sink_key_spec raw) ∧
    jvm_sink_key "java.lang.Runtime.exec(Ljava/lang/String;)" =
      ("java.lang.Runtime", "exec") ∧
    filter_function_list (fun s => s)
        [⟨"java.lang.Runtime.exec(Ljava/lang/String;)", "R.java", [], [], []⟩]
        "jvm" =
      [⟨"java.lang.Runtime.exec(Ljava/lang/String;)", "R.java", [], [], []⟩] :=
  ⟨jvm_sink_key_eq_spec, by decide, by decide⟩

/-- C8: the aggregator iterates the project-wide registry first, then each
profile's registry, keeping a function only if its name is new; assuming
registries key each function by its own name (the spec's join-key
invariant), the aggregated records carrying any given name are exactly the
FIRST record with that name in the project-then-profiles stream — so two
profiles declaring `foo` yield exactly one `foo` record, the first one
encountered. -/
theorem c8_aggregator_first_seen (proj_profile : MergedProjectProfile)
    (profiles : List FuzzerProfile) (n : String)
    (hk : ∀ p ∈ proj_profile.all_functions ++
        profiles.flatMap (fun q => q.all_class_functions),
      p.1 = p.2.function_name) :
    (retrieve_data_list proj_profile profiles).2.filter
        (fun f => f.function_name == n) =
      (((proj_profile.all_functions ++
          profiles.flatMap (fun q => q.all_class_functions)).map
        Prod.snd).filter (fun f => f.function_name == n)).take 1 := by
  rw [retrieve_data_list_functions]
  rw [dedupFirstGo_filter _ _ _ hk]
  simp

/-- C8 witness: Scenario D — two profiles each declaring `foo`; the
aggregated list holds exactly the first `foo` record. -/
theorem c8_witness_first_seen :
    (retrieve_data_list ⟨[], fun _ _ => false⟩
        [⟨none, [("foo", ⟨"foo", "a.py", [], [], []⟩)], "python"⟩,
         ⟨none, [("foo", ⟨"foo", "b.py", [], [], []⟩)], "python"⟩]).2.filter
        (fun f => f.function_name == "foo") =
      [⟨"foo", "a.py", [], [], []⟩] := by
  have h := c8_aggregator_first_seen ⟨[], fun _ _ => false⟩
    [⟨none, [("foo", ⟨"foo", "a.py", [], [], []⟩)], "python"⟩,
     ⟨none, [("foo", ⟨"foo", "b.py", [], [], []⟩)], "python"⟩] "foo" (by decide)
  rw [h]
  decide

/-- C9: with a parsable descriptor line, the caller loop returns a hit as
soon as the first caller whose query is true is reached — the callers
after the first hit never change the outcome — it reports no hit exactly
when no caller's query is true, and the reported fuzzer list is always
either the sink's full `reached_by_fuzzers` list (on a hit) or the
explicit `[""]` marker (on no hit), never anything partial. -/
theorem c9_coverage_first_hit (cov : String → Int → Bool) (loc : String)
    (n : Int) (hparse : parse_called_location_lineno loc = Except.ok n) :
    (∀ (pre post post2 : List String) (c : String),
      (∀ p ∈ pre, cov p n = false) → cov c n = true →
        coverage_hit_loop cov (pre ++ c :: post) loc = Except.ok true ∧
        coverage_hit_loop cov (pre ++ c :: post) loc =
          coverage_hit_loop cov (pre ++ c :: post2) loc) ∧
    (∀ incoming : List String, (∀ p ∈ incoming, cov p n = false) →
      coverage_hit_loop cov incoming loc = Except.ok false) ∧
    (∀ reached : List String,
      list_of_fuzzer_covered_of reached true = reached ∧
      list_of_fuzzer_covered_of reached false = [""] ∧
      ∀ b, list_of_fuzzer_covered_of reached b = reached ∨
        list_of_fuzzer_covered_of reached b = [""]) := by
  have hfirst : ∀ (pre post : List String) (c : String),
      (∀ p ∈ pre, cov p n = false) → cov c n = true →
        coverage_hit_loop cov (pre ++ c :: post) loc = Except.ok true := by
    intro pre
    induction pre with
    | nil =>
        intro post c _ hc
        rw [List.nil_append]
        unfold coverage_hit_loop
        rw [hparse]
        simp [hc]
    | cons q qs ih =>
        intro post c hp hc
        have hq : cov q n = false := hp q (List.mem_cons_self _ _)
        have hrest := ih post c (fun p hp2 => hp p (List.mem_cons_of_mem _ hp2)) hc
        rw [List.cons_append]
        unfold coverage_hit_loop
        rw [hparse]
        simp only [hq]
        simpa using hrest
  refine ⟨?_, ?_, ?_⟩
  · intro pre post post2 c hp hc
    exact ⟨hfirst pre post c hp hc,
      (hfirst pre post c hp hc).trans (hfirst pre post2 c hp hc).symm⟩
  · intro incoming
    induction incoming with
    | nil => intro _; rfl
    | cons q qs ih =>
        intro hp
        have hq : cov q n = false := hp q (List.mem_cons_self _ _)
        have hrest := ih (fun p hp2 => hp p (List.mem_cons_of_mem _ hp2))
        unfold coverage_hit_loop
        rw [hparse]
        simp only [hq]
        simpa using hrest
  · intro reached
    refine ⟨rfl, rfl, ?_⟩
    intro b
    cases b
    · exact Or.inr rfl
    · exact Or.inl rfl

/-- C9 witness: concrete instances of the three conjuncts. -/
theorem c9_witness_first_hit :
    coverage_hit_loop (fun p _ => p == "hit") (["miss"] ++ "hit" :: ["x"])
        "f.c#m:3" = Except.ok true ∧
    coverage_hit_loop (fun _ _ => false) ["a", "b"] "f.c#m:3" =
      Except.ok false := by
  have h1 := c9_coverage_first_hit (fun p _ => p == "hit") "f.c#m:3" 3 rfl
  have h2 := c9_coverage_first_hit (fun _ _ => false) "f.c#m:3" 3 rfl
  exact ⟨(h1.1 ["miss"] ["x"] [] "hit" (by decide) (by decide)).1,
    h2.2.1 ["a", "b"] (by decide)⟩

/-- C10 counterexample: the literal claim says a call site with unknown
destination leaves its descriptor under NO key of the index.  Descriptors
do not mention the destination, so a discarded call site (destination `x`,
unknown) that shares its provenance with a kept call site (destination
`g`) has its descriptor `f.c#f.c:4` present under the key `g`. -/
theorem c10_counterexample_shared_descriptor :
    pdGet (map_function_callsite
        [⟨"g", "g.c", [], [], []⟩]
        [CalltreeCallsite.mk (some "m") (some "f.c") 4 "x" none none,
         CalltreeCallsite.mk (some "m") (some "f.c") 4 "g" none none]) "g" =
      some ["f.c#f.c:4"] ∧
    callsite_descriptor
        (CalltreeCallsite.mk (some "m") (some "f.c") 4 "x" none none) =
      "f.c#f.c:4" ∧
    (CalltreeCallsite.mk (some "m") (some "f.c") 4 "x" none
        none).dst_function_name = "x" ∧
    ("x" : String) ∉ (["g"] : List String) ∧
    pdHasKey (map_function_callsite
        [⟨"g", "g.c", [], [], []⟩]
        [CalltreeCallsite.mk (some "m") (some "f.c") 4 "x" none none,
         CalltreeCallsite.mk (some "m") (some "f.c") 4 "g" none none]) "x" =
      false :=
  ⟨by decide, by decide, rfl, by decide, by decide⟩

/-- C10 amended: the index's keys are exactly the known function names;
every descriptor string stored under a key comes from some call site whose
destination IS that key, so a call site with unknown destination is
discarded and contributes nothing; consequently its descriptor appears
under no key unless some call site with a known destination yields the
identical descriptor string. -/
theorem c10_amended_index_keys (functions : List FunctionProfile)
    (callsites : List CalltreeCallsite) :
    (∀ k, pdHasKey (map_function_callsite functions callsites) k = true ↔
      k ∈ functions.map (fun f => f.function_name)) ∧
    (∀ k l, pdGet (map_function_callsite functions callsites) k = some l →
      ∀ s ∈ l, ∃ cs ∈ callsites,
        cs.dst_function_name = k ∧ callsite_descriptor cs = s) ∧
    (∀ cs ∈ callsites,
      cs.dst_function_name ∉ functions.map (fun f => f.function_name) →
      (∀ cs2 ∈ callsites,
        cs2.dst_function_name ∈ functions.map (fun f => f.function_name) →
        callsite_descriptor cs2 ≠ callsite_descriptor cs) →
      ∀ k l, pdGet (map_function_callsite functions callsites) k = some l →
        callsite_descriptor cs ∉ l) := by
  refine ⟨map_function_callsite_hasKey functions callsites,
    map_function_callsite_values functions callsites, ?_⟩
  intro cs _ _ hnocoll k l hget hmem
  obtain ⟨cs2, hcs2, hdst2, hdesc2⟩ := map_function_callsite_values
    functions callsites k l hget _ hmem
  have hk : pdHasKey (map_function_callsite functions callsites) k = true := by
    unfold pdHasKey
    rw [hget]
    rfl
  have hkmem := (map_function_callsite_hasKey functions callsites k).mp hk
  exact hnocoll cs2 hcs2 (hdst2 ▸ hkmem) hdesc2

/-- C10 witness: a concrete instance of the amended theorem's key
characterisation. -/
theorem c10_witness_index_keys :
    pdHasKey (map_function_callsite [⟨"g", "g.c", [], [], []⟩]
        ([] : List CalltreeCallsite)) "g" = true :=
  ((c10_amended_index_keys [⟨"g", "g.c", [], [], []⟩] []).1 "g").mpr (by decide)
